import Mathlib

/-!
Verification of a small JSON tokenizer / recursive-descent parser
(`src/main.rs`).  The Rust code is shallowly embedded: runtime panics
(`assert!`, `unreachable!`, out-of-bounds indexing, `unwrap`) are
modelled by `Option.none`; the shared `Cell<usize>` cursor is threaded
through return values; the `HashMap` of objects is modelled by an
association list whose `insert` replaces the value at an existing key.
-/

/-- The value tree, mirroring `enum JSONValue` in `main.rs`.
Objects are association lists standing for the `HashMap`;
numbers are rationals standing for `f64` (every numeric value the
program actually materialises is exactly `1.0`). -/
inductive JSONValue where
  | Obj : List (String × JSONValue) → JSONValue
  | Arr : List JSONValue → JSONValue
  | Str : String → JSONValue
  | Num : ℚ → JSONValue
  | Bool : Bool → JSONValue
  | Null : JSONValue

mutual

/-- Boolean equality on value trees (structural). -/
def jvBeq : JSONValue → JSONValue → Bool
  | .Obj l1, .Obj l2 => jvBeqE l1 l2
  | .Arr a1, .Arr a2 => jvBeqL a1 a2
  | .Str s1, .Str s2 => s1 == s2
  | .Num q1, .Num q2 => q1 == q2
  | .Bool b1, .Bool b2 => b1 == b2
  | .Null, .Null => true
  | _, _ => false

/-- Boolean equality on lists of value trees. -/
def jvBeqL : List JSONValue → List JSONValue → Bool
  | [], [] => true
  | v :: r, v' :: r' => jvBeq v v' && jvBeqL r r'
  | _, _ => false

/-- Boolean equality on association lists of value trees. -/
def jvBeqE : List (String × JSONValue) → List (String × JSONValue) → Bool
  | [], [] => true
  | (k, v) :: r, (k', v') :: r' => k == k' && jvBeq v v' && jvBeqE r r'
  | _, _ => false

end



/-- Tokenizer state: the emitted tokens, the in-progress token
(`curr_token`), and the two flags `in_string` and `escape`. -/
structure TokState where
  tokens : List String
  curr : List Char
  in_string : Bool
  escape : Bool
deriving DecidableEq

/-- Pushing `curr_token` onto `tokens` when it is non-empty
(the repeated flush idiom of `tokenize`). -/
def flushT (ts : List String) (cur : List Char) : List String :=
  if cur.isEmpty then ts else ts ++ [String.mk cur]

/-- One step of the `tokenize` loop of `main.rs`, one match arm per
character class, in source order.  `none` models a panicking `assert!`
or `unreachable!`. -/
def tokStep (st : TokState) (c : Char) : Option TokState :=
  if c = '\n' ∨ c = '\r' ∨ c = '\t' then
    if st.in_string then none
    else some ⟨flushT st.tokens st.curr, [], st.in_string, false⟩
  else if c = '\x7b' ∨ c = '\x7d' ∨ c = '[' ∨ c = ']' ∨ c = ':' ∨ c = ',' ∨
          c = '+' ∨ c = '-' ∨ c = '.' then
    if st.in_string then some ⟨st.tokens, st.curr ++ [c], st.in_string, false⟩
    else some ⟨flushT st.tokens st.curr ++ [String.mk [c]], [], st.in_string, false⟩
  else if c = '\\' then
    if st.in_string then
      if st.escape then some ⟨st.tokens, st.curr ++ [c], st.in_string, false⟩
      else some ⟨st.tokens, st.curr, st.in_string, true⟩
    else none
  else if c = '/' then
    some ⟨st.tokens, st.curr ++ [c], st.in_string, false⟩
  else if c = 'b' ∨ c = 'f' ∨ c = 'n' ∨ c = 'r' ∨ c = 't' then
    if st.escape then
      if st.in_string then
        some ⟨st.tokens,
          st.curr ++ [if c = 'b' then '\x08' else if c = 'f' then '\x0c'
                      else if c = 'n' then '\n' else if c = 'r' then '\r'
                      else '\t'],
          st.in_string, false⟩
      else none
    else some ⟨st.tokens, st.curr ++ [c], st.in_string, st.escape⟩
  else if c = 'u' then
    some ⟨st.tokens, st.curr ++ [c], st.in_string, false⟩
  else if c = '"' then
    if st.escape then
      if st.in_string then some ⟨st.tokens, st.curr ++ [c], st.in_string, false⟩
      else none
    else some ⟨flushT st.tokens st.curr ++ [String.mk [c]], [], !st.in_string, st.escape⟩
  else if c = ' ' then
    if st.in_string then some ⟨st.tokens, st.curr ++ [c], st.in_string, false⟩
    else some ⟨flushT st.tokens st.curr, [], st.in_string, false⟩
  else if c = 'E' ∨ c = 'e' then
    if st.in_string then some ⟨st.tokens, st.curr ++ [c], st.in_string, st.escape⟩
    else
      match st.curr.getLast? with
      | some n =>
          if '0' ≤ n ∧ n ≤ '9' then
            some ⟨st.tokens ++ [String.mk st.curr, String.mk [c]], [], st.in_string, false⟩
          else some ⟨st.tokens, st.curr ++ [c], st.in_string, false⟩
      | none => none
  else
    some ⟨st.tokens, st.curr ++ [c], st.in_string, false⟩

/-- Running the tokenizer loop over a character list. -/
def tokRun : TokState → List Char → Option TokState
  | st, [] => some st
  | st, c :: cs =>
    match tokStep st c with
    | none => none
    | some st' => tokRun st' cs

/-- The initial tokenizer state. -/
def tokInit : TokState := ⟨[], [], false, false⟩

/-- `tokenize` of `main.rs`: run the loop over the input, then the
final `assert!(curr_token.is_empty())`. -/
def tokenize (cs : List Char) : Option (List String) :=
  match tokRun tokInit cs with
  | none => none
  | some st => if st.curr.isEmpty then some st.tokens else none

/-- `parse_string` of `main.rs`: `s` is the token at the cursor, `t`
the one after it; a closing quote at `t` returns `s` (cursor past
both), anything else returns the empty string (cursor past `s` only).
Out-of-bounds indexing is `none`. -/
def parseString (ts : List String) (c : Nat) : Option (String × Nat) :=
  match ts.get? c with
  | none => none
  | some s =>
    match ts.get? (c + 1) with
    | none => none
    | some t => if t = "\"" then some (s, c + 2) else some ("", c + 1)

/-- The `while !forbidden_tokens.contains(..)` loop in the fallback arm
of `parse_value`: advance the cursor until one of `","  "\""  "]"  "\x7d"`
is found; running off the end of the tokens is a panic (`none`).  The
extra `Nat` is recursion fuel: with fuel at least `ts.length + 1` it can
never run out, because the cursor reaches the end of the tokens first. -/
def skipNum : List String → Nat → Nat → Option Nat
  | _, _, 0 => none
  | ts, c, fuel + 1 =>
    match ts.get? c with
    | none => none
    | some t =>
      if t = "," ∨ t = "\"" ∨ t = "]" ∨ t = "\x7d" then some c
      else skipNum ts (c + 1) fuel

/-- `HashMap::insert`: replace the value at an existing key, otherwise
append the binding. -/
def hmInsert (m : List (String × JSONValue)) (k : String) (v : JSONValue) :
    List (String × JSONValue) :=
  match m with
  | [] => [(k, v)]
  | (k', v') :: rest => if k' = k then (k, v) :: rest else (k', v') :: hmInsert rest k v

/-- Which recursive parse procedure of `main.rs` is running:
`parse_value`, the `loop` of `parse_object` (with the map accumulated
so far), or the `loop` of `parse_array` (with the vector accumulated
so far). -/
inductive PMode where
  | val : PMode
  | obj : List (String × JSONValue) → PMode
  | arr : List JSONValue → PMode

/-- The three mutually recursive parse procedures of `main.rs` as one
driver, structurally recursive on fuel (the Rust recursion terminates
or panics; fuel `0` never fires on the executions the theorems below
talk about). -/
def parseRun : Nat → List String → Nat → PMode → Option (JSONValue × Nat)
  | 0, _, _, _ => none
  | fuel + 1, ts, c, PMode.val =>
    match ts.get? c with
    | none => none
    | some t =>
      if t = "\x7b" then parseRun fuel ts (c + 1) (PMode.obj [])
      else if t = "[" then parseRun fuel ts (c + 1) (PMode.arr [])
      else if t = "\"" then
        match parseString ts (c + 1) with
        | none => none
        | some (s, c1) => some (JSONValue.Str s, c1)
      else if t = "true" then some (JSONValue.Bool true, c + 1)
      else if t = "false" then some (JSONValue.Bool false, c + 1)
      else if t = "null" then some (JSONValue.Null, c + 1)
      else
        match skipNum ts c (ts.length + 1) with
        | none => none
        | some c1 => some (JSONValue.Num 1, c1)
  | fuel + 1, ts, c, PMode.obj hm =>
    match ts.get? c with
    | none => none
    | some t =>
      if t = "\x7d" then some (JSONValue.Obj hm, c + 1)
      else if t = "\"" then
        match parseString ts (c + 1) with
        | none => none
        | some (key, c1) =>
          match ts.get? c1 with
          | none => none
          | some t2 =>
            if t2 = ":" then
              match parseRun fuel ts (c1 + 1) PMode.val with
              | none => none
              | some (v, c2) =>
                match ts.get? c2 with
                | none => none
                | some t3 =>
                  if t3 = "," then parseRun fuel ts (c2 + 1) (PMode.obj (hmInsert hm key v))
                  else if t3 = "\x7d" then
                    some (JSONValue.Obj (hmInsert hm key v), c2 + 1)
                  else none
            else none
      else none
  | fuel + 1, ts, c, PMode.arr acc =>
    match ts.get? c with
    | none => none
    | some t =>
      if t = "]" then some (JSONValue.Arr acc, c + 1)
      else
        match parseRun fuel ts c PMode.val with
        | none => none
        | some (v, c1) =>
          match ts.get? c1 with
          | none => none
          | some t2 =>
            if t2 = "," then parseRun fuel ts (c1 + 1) (PMode.arr (acc ++ [v]))
            else if t2 = "]" then some (JSONValue.Arr (acc ++ [v]), c1 + 1)
            else none

/-- `parse_value` of `main.rs`. -/
def parseValue (ts : List String) (c : Nat) (fuel : Nat) : Option (JSONValue × Nat) :=
  parseRun fuel ts c PMode.val

/-- `parse_object` of `main.rs` (its `loop`, with the accumulated map
as an argument; the function itself starts from the empty map). -/
def parseObject (ts : List String) (c : Nat) (fuel : Nat)
    (hm : List (String × JSONValue)) : Option (JSONValue × Nat) :=
  parseRun fuel ts c (PMode.obj hm)

/-- `parse_array` of `main.rs` (its `loop`, with the accumulated vector
as an argument; the function itself starts from the empty vector). -/
def parseArray (ts : List String) (c : Nat) (fuel : Nat)
    (acc : List JSONValue) : Option (JSONValue × Nat) :=
  parseRun fuel ts c (PMode.arr acc)

/-- `i32::from_str_radix(s, 10)`: an optional sign followed by at least
one decimal digit, rejecting the empty string, non-digits and values
outside the `i32` range. -/
def fromStrRadix10 (s : String) : Option Int :=
  let (sign, ds) : Int × List Char :=
    match s.data with
    | '+' :: rest => (1, rest)
    | '-' :: rest => (-1, rest)
    | l => (1, l)
  if ds.isEmpty then none
  else if ds.all (fun c => '0' ≤ c ∧ c ≤ '9') then
    let n : Nat := ds.foldl (fun a c => a * 10 + (c.toNat - '0'.toNat)) 0
    let v : Int := sign * n
    if -2147483648 ≤ v ∧ v ≤ 2147483647 then some v else none
  else none

/-- `parse_number` of `main.rs` (dead code in the program: `parse_value`
never calls it).  It consumes an optional sign, a mandatory integer
token, then optionally `.` or an exponent marker with a mandatory sign,
and always returns `Num 1.0`. -/
def parse_number (ts : List String) (c : Nat) : Option (JSONValue × Nat) :=
  match ts.get? c with
  | none => none
  | some t0 =>
    let c1 := if t0 = "+" ∨ t0 = "-" then c + 1 else c
    match ts.get? c1 with
    | none => none
    | some numT =>
      match fromStrRadix10 numT with
      | none => none
      | some _ =>
        let c2 := c1 + 1
        match ts.get? c2 with
        | none => none
        | some t2 =>
          if t2 = "." then some (JSONValue.Num 1, c2 + 1)
          else if t2 = "E" ∨ t2 = "e" then
            match ts.get? (c2 + 1) with
            | none => none
            | some t3 =>
              if t3 = "+" ∨ t3 = "-" then some (JSONValue.Num 1, c2 + 2)
              else none
          else some (JSONValue.Num 1, c2)

/-- `parse_json` of `main.rs`: tokenize, then `parse_value` from cursor
`0`.  The fuel `ts.length + 1` dominates the depth of the Rust call
tree, so it never runs out where the Rust code returns. -/
def parse_json (cs : List Char) : Option JSONValue :=
  match tokenize cs with
  | none => none
  | some ts =>
    match parseValue ts 0 (ts.length + 1) with
    | none => none
    | some (v, _) => some v

/-- Modelled from the spec: the serializer is not present under `src/`
(the spec's §4.3 describes it); "strings re-quoted with backslashes
doubled" — the backslash-doubling applied to string content on
output. -/
def escB : List Char → List Char
  | [] => []
  | c :: rest => if c = '\\' then '\\' :: '\\' :: escB rest else c :: escB rest

/-- Modelled from the spec: the serializer is not present under `src/`;
"numbers via default float formatting" — integral values print with no
decimal point (Rust's default `f64` formatting), written here for the
rational number model. -/
def serializeNum (q : ℚ) : String :=
  if q.den = 1 then toString q.num else toString q

/-- Four spaces of indentation per nesting level. -/
def indentStr (n : Nat) : String := String.mk (List.replicate (4 * n) ' ')

mutual

/-- Modelled from the spec: the serializer is not present under `src/`;
§4.3: indented text, objects as one `    "key": value,` line per entry
between braces, arrays analogously, strings re-quoted with backslashes
doubled, numbers via default float formatting, booleans as
`true`/`false`, null as `null`. -/
def serializeVal : JSONValue → Nat → String
  | JSONValue.Obj l, ind =>
      "\x7b\n" ++ serializeEntries l (ind + 1) ++ indentStr ind ++ "\x7d"
  | JSONValue.Arr es, ind =>
      "[\n" ++ serializeElems es (ind + 1) ++ indentStr ind ++ "]"
  | JSONValue.Str s, _ => "\"" ++ String.mk (escB s.data) ++ "\""
  | JSONValue.Num q, _ => serializeNum q
  | JSONValue.Bool b, _ => if b then "true" else "false"
  | JSONValue.Null, _ => "null"

/-- Modelled from the spec: the object-entry lines of the serializer,
one `    "key": value,` line per entry. -/
def serializeEntries : List (String × JSONValue) → Nat → String
  | [], _ => ""
  | (k, v) :: rest, ind =>
      indentStr ind ++ "\"" ++ String.mk (escB k.data) ++ "\": " ++
        serializeVal v ind ++ ",\n" ++ serializeEntries rest ind

/-- Modelled from the spec: the array-element lines of the serializer. -/
def serializeElems : List JSONValue → Nat → String
  | [], _ => ""
  | v :: rest, ind =>
      indentStr ind ++ serializeVal v ind ++ ",\n" ++ serializeElems rest ind

end

/-- Modelled from the spec: `serialize(JSONValue) -> text`, rendering
from nesting depth `0`. -/
def serialize (v : JSONValue) : String := serializeVal v 0

mutual

/-- The token sequence the tokenizer recovers from the serialized text
of a value tree (used to state the round-trip theorem). -/
def toks : JSONValue → List String
  | JSONValue.Obj l => "\x7b" :: entsToks l ++ ["\x7d"]
  | JSONValue.Arr es => "[" :: elemsToks es ++ ["]"]
  | JSONValue.Str s => "\"" :: (if s.data.isEmpty then [] else [s]) ++ ["\""]
  | JSONValue.Num q => [serializeNum q]
  | JSONValue.Bool b => [if b then "true" else "false"]
  | JSONValue.Null => ["null"]

/-- Token sequence of serialized object entries. -/
def entsToks : List (String × JSONValue) → List String
  | [] => []
  | (k, v) :: rest =>
      ("\"" :: (if k.data.isEmpty then [] else [k]) ++ ["\"", ":"]) ++
        toks v ++ [","] ++ entsToks rest

/-- Token sequence of serialized array elements. -/
def elemsToks : List JSONValue → List String
  | [] => []
  | v :: rest => toks v ++ [","] ++ elemsToks rest

end

/-- Characters that survive the quote → tokenizer round trip inside a
string literal: anything except the quote delimiter and the whitespace
characters that are illegal inside a tokenizer string. -/
def goodStr (s : String) : Bool :=
  s.data.all fun c => c != '"' && c != '\n' && c != '\r' && c != '\t'

mutual

/-- Value trees on which the round trip is claimed after amendment:
every number is the `1.0` the parser can actually produce, every string
and key survives re-quoting, and object keys are pairwise distinct. -/
def goodTree : JSONValue → Bool
  | JSONValue.Obj l => goodEntries l
  | JSONValue.Arr es => goodElems es
  | JSONValue.Str s => goodStr s
  | JSONValue.Num q => q == 1
  | JSONValue.Bool _ => true
  | JSONValue.Null => true

/-- Goodness of object entries: good key, good value, key not repeated
later. -/
def goodEntries : List (String × JSONValue) → Bool
  | [] => true
  | (k, v) :: rest =>
      goodStr k && goodTree v && rest.all (fun p => p.1 != k) && goodEntries rest

/-- Goodness of array elements. -/
def goodElems : List JSONValue → Bool
  | [] => true
  | v :: rest => goodTree v && goodElems rest

end

/-- Whether a value tree is an object or array at top level (the
serialized text of such a tree ends with a flushing `\x7d` or `]`). -/
def isContainer : JSONValue → Bool
  | JSONValue.Obj _ => true
  | JSONValue.Arr _ => true
  | _ => false

/-- The scalar tokens still sitting in `curr_token` after the
serialized text of a value has been scanned (containers and strings
end with a flushing delimiter, scalars do not). -/
def pendingOf : JSONValue → List Char
  | JSONValue.Num q => (serializeNum q).data
  | JSONValue.Bool b => if b then "true".data else "false".data
  | JSONValue.Null => "null".data
  | _ => []

/-- The tokens already emitted after the serialized text of a value has
been scanned. -/
def emittedOf (v : JSONValue) : List String :=
  match v with
  | JSONValue.Obj _ => toks v
  | JSONValue.Arr _ => toks v
  | JSONValue.Str _ => toks v
  | _ => []

mutual

theorem jvBeq_iff : ∀ a b : JSONValue, jvBeq a b = true ↔ a = b
  | .Obj l1, .Obj l2 => by simp [jvBeq, jvBeqE_iff l1 l2]
  | .Arr a1, .Arr a2 => by simp [jvBeq, jvBeqL_iff a1 a2]
  | .Str s1, .Str s2 => by simp [jvBeq]
  | .Num q1, .Num q2 => by simp [jvBeq]
  | .Bool b1, .Bool b2 => by simp [jvBeq]
  | .Null, .Null => by simp [jvBeq]
  | .Obj _, .Arr _ => by simp [jvBeq]
  | .Obj _, .Str _ => by simp [jvBeq]
  | .Obj _, .Num _ => by simp [jvBeq]
  | .Obj _, .Bool _ => by simp [jvBeq]
  | .Obj _, .Null => by simp [jvBeq]
  | .Arr _, .Obj _ => by simp [jvBeq]
  | .Arr _, .Str _ => by simp [jvBeq]
  | .Arr _, .Num _ => by simp [jvBeq]
  | .Arr _, .Bool _ => by simp [jvBeq]
  | .Arr _, .Null => by simp [jvBeq]
  | .Str _, .Obj _ => by simp [jvBeq]
  | .Str _, .Arr _ => by simp [jvBeq]
  | .Str _, .Num _ => by simp [jvBeq]
  | .Str _, .Bool _ => by simp [jvBeq]
  | .Str _, .Null => by simp [jvBeq]
  | .Num _, .Obj _ => by simp [jvBeq]
  | .Num _, .Arr _ => by simp [jvBeq]
  | .Num _, .Str _ => by simp [jvBeq]
  | .Num _, .Bool _ => by simp [jvBeq]
  | .Num _, .Null => by simp [jvBeq]
  | .Bool _, .Obj _ => by simp [jvBeq]
  | .Bool _, .Arr _ => by simp [jvBeq]
  | .Bool _, .Str _ => by simp [jvBeq]
  | .Bool _, .Num _ => by simp [jvBeq]
  | .Bool _, .Null => by simp [jvBeq]
  | .Null, .Obj _ => by simp [jvBeq]
  | .Null, .Arr _ => by simp [jvBeq]
  | .Null, .Str _ => by simp [jvBeq]
  | .Null, .Num _ => by simp [jvBeq]
  | .Null, .Bool _ => by simp [jvBeq]

theorem jvBeqL_iff : ∀ a b : List JSONValue, jvBeqL a b = true ↔ a = b
  | [], [] => by simp [jvBeqL]
  | [], _ :: _ => by simp [jvBeqL]
  | _ :: _, [] => by simp [jvBeqL]
  | v :: r, v' :: r' => by
      simp [jvBeqL, jvBeq_iff v v', jvBeqL_iff r r']

theorem jvBeqE_iff : ∀ a b : List (String × JSONValue), jvBeqE a b = true ↔ a = b
  | [], [] => by simp [jvBeqE]
  | [], _ :: _ => by simp [jvBeqE]
  | _ :: _, [] => by simp [jvBeqE]
  | (k, v) :: r, (k', v') :: r' => by
      simp [jvBeqE, jvBeq_iff v v', jvBeqE_iff r r', and_assoc]

end

instance : DecidableEq JSONValue :=
  fun a b => decidable_of_iff (jvBeq a b = true) (jvBeq_iff a b)

/-- `String.mk` of a non-empty character list is not the empty string. -/
theorem stringMk_ne_empty (l : List Char) (h : l ≠ []) : String.mk l ≠ "" := by
  intro hc
  exact h (congrArg String.data hc)

/-- `hmInsert` is last-write-wins: looking up the inserted key finds the
inserted value, whatever was bound before. -/
theorem hmInsert_lookup : ∀ (m : List (String × JSONValue)) (k : String) (v : JSONValue),
    List.lookup k (hmInsert m k v) = some v
  | [], k, v => by simp [hmInsert, List.lookup]
  | (k', v') :: r, k, v => by
      by_cases h : k' = k
      · simp [hmInsert, h, List.lookup]
      · simp only [hmInsert, if_neg h, List.lookup]
        have : (k == k') = false := by
          simp [beq_eq_false_iff_ne]
          exact fun hk => h hk.symm
        simp [this, hmInsert_lookup r k v]

/-- C1: the spec claims
`parse("\x7b\"x\":[1,2.5,-3e2,true,false,null,\"s\"]\x7d")` yields the
numbers `1.0`, `2.5` and `-300.0` inside the array.  The code's
`parse_value` has no real number parsing (its comment calls the fallback
a "temporary workaround"): every numeric run is skipped and replaced by
`Num 1.0`, so the parse succeeds but yields `1.0` three times, not the
claimed values. -/
theorem parse_example_numbers_stubbed :
    parse_json "\x7b\"x\":[1,2.5,-3e2,true,false,null,\"s\"]\x7d".data =
      some (JSONValue.Obj [("x", JSONValue.Arr
        [JSONValue.Num 1, JSONValue.Num 1, JSONValue.Num 1,
         JSONValue.Bool true, JSONValue.Bool false, JSONValue.Null,
         JSONValue.Str "s"])]) ∧
    parse_json "\x7b\"x\":[1,2.5,-3e2,true,false,null,\"s\"]\x7d".data ≠
      some (JSONValue.Obj [("x", JSONValue.Arr
        [JSONValue.Num 1, JSONValue.Num (5 / 2), JSONValue.Num (-300),
         JSONValue.Bool true, JSONValue.Bool false, JSONValue.Null,
         JSONValue.Str "s"])]) := by
  have h1 : tokenize "\x7b\"x\":[1,2.5,-3e2,true,false,null,\"s\"]\x7d".data =
      some ["\x7b", "\"", "x", "\"", ":", "[", "1", ",", "2", ".", "5", ",",
        "-", "3", "e", "2", ",", "true", ",", "false", ",", "null", ",",
        "\"", "s", "\"", "]", "\x7d"] := by decide
  have h2 : parseValue ["\x7b", "\"", "x", "\"", ":", "[", "1", ",", "2", ".", "5", ",",
        "-", "3", "e", "2", ",", "true", ",", "false", ",", "null", ",",
        "\"", "s", "\"", "]", "\x7d"] 0 29 =
      some (JSONValue.Obj [("x", JSONValue.Arr
        [JSONValue.Num 1, JSONValue.Num 1, JSONValue.Num 1,
         JSONValue.Bool true, JSONValue.Bool false, JSONValue.Null,
         JSONValue.Str "s"])], 28) := by decide
  have he : parse_json "\x7b\"x\":[1,2.5,-3e2,true,false,null,\"s\"]\x7d".data =
      some (JSONValue.Obj [("x", JSONValue.Arr
        [JSONValue.Num 1, JSONValue.Num 1, JSONValue.Num 1,
         JSONValue.Bool true, JSONValue.Bool false, JSONValue.Null,
         JSONValue.Str "s"])]) := by simp [parse_json, h1, h2]
  refine ⟨he, ?_⟩
  rw [he]
  norm_num

/-- C2: the spec claims `parse("\x7b\"a\":\x7d")` fails with a parse
error.  The code's fallback number branch accepts the `\x7d` token as
the end of a (zero-length) numeric run without consuming it, produces
`Num 1.0` for the missing value, and the parse succeeds. -/
theorem parse_missing_value_accepted :
    parse_json "\x7b\"a\":\x7d".data =
      some (JSONValue.Obj [("a", JSONValue.Num 1)]) := by
  have h1 : tokenize "\x7b\"a\":\x7d".data =
      some ["\x7b", "\"", "a", "\"", ":", "\x7d"] := by decide
  have h2 : parseValue ["\x7b", "\"", "a", "\"", ":", "\x7d"] 0 7 =
      some (JSONValue.Obj [("a", JSONValue.Num 1)], 6) := by decide
  simp [parse_json, h1, h2]

/-- C6: the spec claims `parse("\x7b\"a\":1,\"a\":2\x7d")` maps `a` to
the number `2`.  The insertion really is last-write-wins (third
conjunct), but the number parsing is stubbed to `1.0`, so both
occurrences parse to `1.0` and the result maps `a` to `1.0`, not `2`. -/
theorem duplicate_keys_value_stubbed :
    parse_json "\x7b\"a\":1,\"a\":2\x7d".data =
      some (JSONValue.Obj [("a", JSONValue.Num 1)]) ∧
    parse_json "\x7b\"a\":1,\"a\":2\x7d".data ≠
      some (JSONValue.Obj [("a", JSONValue.Num 2)]) ∧
    (∀ (m : List (String × JSONValue)) (k : String) (v : JSONValue),
      List.lookup k (hmInsert m k v) = some v) := by
  have h1 : tokenize "\x7b\"a\":1,\"a\":2\x7d".data =
      some ["\x7b", "\"", "a", "\"", ":", "1", ",", "\"", "a", "\"", ":", "2", "\x7d"] := by
    decide
  have h2 : parseValue ["\x7b", "\"", "a", "\"", ":", "1", ",", "\"", "a", "\"", ":", "2", "\x7d"]
      0 14 = some (JSONValue.Obj [("a", JSONValue.Num 1)], 13) := by decide
  have he : parse_json "\x7b\"a\":1,\"a\":2\x7d".data =
      some (JSONValue.Obj [("a", JSONValue.Num 1)]) := by simp [parse_json, h1, h2]
  refine ⟨he, ?_, hmInsert_lookup⟩
  rw [he]
  norm_num

/-- C4 counterexample: the claim says end of input with `in_string`
still true, or a pending escape, makes `tokenize` fail.  The input
consisting of one quote character ends the scan with `in_string = true`,
and the input quote-backslash ends it with `escape = true`, yet both
succeed: the only end-of-input check is `assert!(curr_token.is_empty())`. -/
theorem unterminated_string_accepted :
    tokRun tokInit ['"'] = some ⟨["\""], [], true, false⟩ ∧
    tokenize ['"'] = some ["\""] ∧
    tokRun tokInit ['"', '\\'] = some ⟨["\""], [], true, true⟩ ∧
    tokenize ['"', '\\'] = some ["\""] := by decide

/-- C4 amended: at end of input `tokenize` checks only that the
in-progress token buffer is empty; the final `in_string` and `escape`
flags are never consulted. -/
theorem eof_check_is_buffer_emptiness (cs : List Char) (st : TokState)
    (h : tokRun tokInit cs = some st) :
    tokenize cs = if st.curr.isEmpty then some st.tokens else none := by
  simp [tokenize, h]

theorem eof_check_is_buffer_emptiness_witness :
    tokRun tokInit "\"a".data = some ⟨["\""], ['a'], true, false⟩ ∧
    tokenize "\"a".data =
      if (TokState.mk ["\""] ['a'] true false).curr.isEmpty
      then some (TokState.mk ["\""] ['a'] true false).tokens else none :=
  ⟨by decide, eof_check_is_buffer_emptiness _ _ (by decide)⟩

/-- C5 counterexample: the claim says `tokenize` of the input text
`1e10` returns `["1","e","10"]`.  On that exact input the trailing
digits `10` are still buffered at end of input, the final
`assert!(curr_token.is_empty())` fires, and `tokenize` fails. -/
theorem exponent_example_unflushed :
    tokenize "1e10".data = none ∧
    tokenize "1e10".data ≠ some ["1", "e", "10"] := by decide

/-- C5 amended: an exponent marker `e`/`E` outside a string immediately
after a decimal digit does flush the in-progress token and start a new
one, and `1e10` followed by a flushing delimiter (here a space) does
tokenize as `["1","e","10"]`; the bare input `1e10` fails only because
its last token is never flushed (see the counterexample). -/
theorem exponent_flush_behavior :
    (∀ (st : TokState) (c d : Char), (c = 'e' ∨ c = 'E') →
      st.in_string = false → st.curr.getLast? = some d → '0' ≤ d → d ≤ '9' →
      tokStep st c = some ⟨st.tokens ++ [String.mk st.curr, String.mk [c]],
        [], false, false⟩) ∧
    tokenize "1e10 ".data = some ["1", "e", "10"] := by
  constructor
  · intro st c d hc hs hl h0 h9
    rcases hc with rfl | rfl <;> simp [tokStep, hs, hl, h0, h9]
  · decide

theorem exponent_flush_behavior_witness :
    tokStep (TokState.mk [] ['1'] false false) 'e' =
      some ⟨[String.mk ['1'], String.mk ['e']], [], false, false⟩ :=
  exponent_flush_behavior.1 _ 'e' '1' (Or.inl rfl) rfl rfl (by decide) (by decide)

/-- C10 counterexample: the claim says `tokenize` of the input text
`2.5` yields `["2",".","5"]`.  On that exact input the trailing `5` is
still buffered at end of input, the final
`assert!(curr_token.is_empty())` fires, and `tokenize` fails. -/
theorem punct_example_unflushed :
    tokenize "2.5".data = none ∧
    tokenize "2.5".data ≠ some ["2", ".", "5"] := by decide

/-- C10 amended: outside a string each of `+`, `-`, `.` ends the
in-progress token and is emitted as its own one-character token, like
structural punctuation; `2.5` followed by a flushing delimiter (here a
space) tokenizes as `["2",".","5"]`, and `-3,` as `["-","3",","]`; the
bare input `2.5` fails only because its last token is never flushed
(see the counterexample). -/
theorem sign_dot_own_tokens :
    (∀ (st : TokState) (c : Char), (c = '+' ∨ c = '-' ∨ c = '.') →
      st.in_string = false →
      tokStep st c = some ⟨flushT st.tokens st.curr ++ [String.mk [c]],
        [], false, false⟩) ∧
    tokenize "2.5 ".data = some ["2", ".", "5"] ∧
    tokenize "-3,".data = some ["-", "3", ","] := by
  refine ⟨?_, by decide, by decide⟩
  intro st c hc hs
  rcases hc with rfl | rfl | rfl <;> simp [tokStep, hs]

theorem sign_dot_own_tokens_witness :
    tokStep (TokState.mk [] ['2'] false false) '.' =
      some ⟨flushT [] ['2'] ++ [String.mk ['.']], [], false, false⟩ :=
  (sign_dot_own_tokens.1) _ '.' (Or.inr (Or.inr rfl)) rfl

/-- C7 counterexample: the claim says back-to-back quote tokens always
denote the empty string.  After input `""""` (four quote characters),
`parse_string` entered at the second token (back-to-back quotes at
positions 0 and 1) sees a quote at position 2 as well, takes the middle
quote token as the string content, and returns `"` — a one-character
string, not the empty string — advancing the cursor past three tokens. -/
theorem empty_string_quote_quirk :
    tokenize "\"\"\"\"".data = some ["\"", "\"", "\"", "\""] ∧
    parseString ["\"", "\"", "\"", "\""] 1 = some ("\"", 3) ∧
    ("\"" : String) ≠ "" := by decide

/-- C7 amended: back-to-back quote tokens denote the empty string
(cursor advanced past the closing quote) only when the token after them
is not itself a quote token; and a token lying immediately before a
quote token is returned verbatim as the string content, with no further
decoding (which, when that token is itself a quote, yields the quirk in
the counterexample). -/
theorem parse_string_behavior :
    (∀ (ts : List String) (c : Nat) (u : String),
      ts.get? c = some "\"" → ts.get? (c + 1) = some u → u ≠ "\"" →
      parseString ts c = some ("", c + 1)) ∧
    (∀ (ts : List String) (c : Nat) (s : String),
      ts.get? c = some s → ts.get? (c + 1) = some "\"" →
      parseString ts c = some (s, c + 2)) := by
  constructor
  · intro ts c u h1 h2 hu
    rw [List.get?_eq_getElem?] at h1 h2
    simp [parseString, h1, h2, hu]
  · intro ts c s h1 h2
    rw [List.get?_eq_getElem?] at h1 h2
    simp [parseString, h1, h2]

theorem parse_string_behavior_witness :
    parseString ["\"", ":"] 0 = some ("", 1) ∧
    parseString ["x", "\""] 0 = some ("x", 2) :=
  ⟨parse_string_behavior.1 _ 0 ":" rfl rfl (by decide),
   parse_string_behavior.2 _ 0 "x" rfl rfl⟩

/-- The number-skipping loop never moves the cursor backwards. -/
theorem skipNum_mono : ∀ (fuel : Nat) (ts : List String) (c cf : Nat),
    skipNum ts c fuel = some cf → c ≤ cf := by
  intro fuel
  induction fuel with
  | zero => intro ts c cf h; simp [skipNum] at h
  | succ n ih =>
    intro ts c cf h
    rw [skipNum] at h
    split at h
    · exact absurd h (by simp)
    · split_ifs at h with hf
      · injection h with h; omega
      · have := ih ts (c + 1) cf h; omega

/-- `parse_string` never moves the cursor backwards. -/
theorem parseString_mono (ts : List String) (c : Nat) (r : String × Nat)
    (h : parseString ts c = some r) : c ≤ r.2 := by
  unfold parseString at h
  split at h
  · exact absurd h (by simp)
  · split at h
    · exact absurd h (by simp)
    · split_ifs at h
      · injection h with h; subst h; exact Nat.le_add_right c 2
      · injection h with h; subst h; exact Nat.le_add_right c 1

/-- The parse driver never moves the cursor backwards, whatever
procedure is running. -/
theorem parseRun_mono : ∀ (fuel : Nat) (ts : List String) (c : Nat) (m : PMode)
    (r : JSONValue × Nat), parseRun fuel ts c m = some r → c ≤ r.2 := by
  intro fuel
  induction fuel with
  | zero => intro ts c m r h; simp [parseRun] at h
  | succ n ih =>
    intro ts c m r h
    cases m with
    | val =>
      rw [parseRun] at h
      split at h
      · exact absurd h (by simp)
      · split_ifs at h with h1 h2 h3 h4 h5 h6
        · have := ih ts (c + 1) (PMode.obj []) r h; omega
        · have := ih ts (c + 1) (PMode.arr []) r h; omega
        · split at h
          · exact absurd h (by simp)
          · rename_i s c1 hps
            have hle : c + 1 ≤ c1 := parseString_mono ts (c + 1) (s, c1) hps
            injection h with h
            subst h
            show c ≤ c1
            omega
        · injection h with h; subst h; exact Nat.le_add_right c 1
        · injection h with h; subst h; exact Nat.le_add_right c 1
        · injection h with h; subst h; exact Nat.le_add_right c 1
        · split at h
          · exact absurd h (by simp)
          · rename_i c1 hsk
            injection h with h
            subst h
            show c ≤ c1
            exact skipNum_mono _ ts c c1 hsk
    | obj hm =>
      rw [parseRun] at h
      split at h
      · exact absurd h (by simp)
      · split_ifs at h with h1 h2
        · injection h with h; subst h; exact Nat.le_add_right c 1
        · split at h
          · exact absurd h (by simp)
          · rename_i key c1 hps
            have hle1 : c + 1 ≤ c1 := parseString_mono ts (c + 1) (key, c1) hps
            split at h
            · exact absurd h (by simp)
            · split_ifs at h with ht2
              · split at h
                · exact absurd h (by simp)
                · rename_i v c2 hpv
                  have hle2 : c1 + 1 ≤ c2 := ih ts (c1 + 1) PMode.val (v, c2) hpv
                  split at h
                  · exact absurd h (by simp)
                  · split_ifs at h with h3 h4
                    · have := ih ts (c2 + 1) (PMode.obj (hmInsert hm key v)) r h
                      omega
                    · injection h with h
                      subst h
                      show c ≤ c2 + 1
                      omega
    | arr acc =>
      rw [parseRun] at h
      split at h
      · exact absurd h (by simp)
      · split_ifs at h with h1
        · injection h with h; subst h; exact Nat.le_add_right c 1
        · split at h
          · exact absurd h (by simp)
          · rename_i v c1 hpv
            have hle1 : c ≤ c1 := ih ts c PMode.val (v, c1) hpv
            split at h
            · exact absurd h (by simp)
            · split_ifs at h with h2 h3
              · have := ih ts (c1 + 1) (PMode.arr (acc ++ [v])) r h
                omega
              · injection h with h
                subst h
                show c ≤ c1 + 1
                omega

/-- `parse_number` never moves the cursor backwards. -/
theorem parse_number_mono (ts : List String) (c : Nat) (r : JSONValue × Nat)
    (h : parse_number ts c = some r) : c ≤ r.2 := by
  simp only [parse_number] at h
  split at h
  · exact absurd h (by simp)
  · rename_i t0 h0
    by_cases hs : t0 = "+" ∨ t0 = "-"
    case pos =>
      simp only [if_pos hs] at h
      · split at h
        · exact absurd h (by simp)
        · split at h
          · exact absurd h (by simp)
          · split at h
            · exact absurd h (by simp)
            · split_ifs at h with hd he
              · injection h with h; subst h; show c ≤ _ + 1; omega
              · split at h
                · exact absurd h (by simp)
                · split_ifs at h with hs3
                  injection h with h; subst h; show c ≤ _ + 2; omega
              · injection h with h; subst h; show c ≤ _ ; omega
    case neg =>
      simp only [if_neg hs] at h
      · split at h
        · exact absurd h (by simp)
        · split at h
          · exact absurd h (by simp)
          · split at h
            · exact absurd h (by simp)
            · split_ifs at h with hd he
              · injection h with h; subst h; show c ≤ _ + 1; omega
              · split at h
                · exact absurd h (by simp)
                · split_ifs at h with hs3
                  injection h with h; subst h; show c ≤ _ + 2; omega
              · injection h with h; subst h; show c ≤ _ ; omega

/-- C8: during one parse every procedure only ever moves the shared
cursor forward: whenever `parse_value`, `parse_object`, `parse_array`,
`parse_string`, `parse_number` or the number-skipping loop of the
`parse_value` fallback returns, the returned cursor is at least the
cursor it started from; the cursor is never reset. -/
theorem cursor_monotone :
    (∀ (ts : List String) (c fuel : Nat) (r : JSONValue × Nat),
      parseValue ts c fuel = some r → c ≤ r.2) ∧
    (∀ (ts : List String) (c fuel : Nat) (hm : List (String × JSONValue))
      (r : JSONValue × Nat), parseObject ts c fuel hm = some r → c ≤ r.2) ∧
    (∀ (ts : List String) (c fuel : Nat) (acc : List JSONValue)
      (r : JSONValue × Nat), parseArray ts c fuel acc = some r → c ≤ r.2) ∧
    (∀ (ts : List String) (c : Nat) (r : String × Nat),
      parseString ts c = some r → c ≤ r.2) ∧
    (∀ (ts : List String) (c : Nat) (r : JSONValue × Nat),
      parse_number ts c = some r → c ≤ r.2) ∧
    (∀ (ts : List String) (c fuel cf : Nat),
      skipNum ts c fuel = some cf → c ≤ cf) :=
  ⟨fun ts c fuel r h => parseRun_mono fuel ts c PMode.val r h,
   fun ts c fuel hm r h => parseRun_mono fuel ts c (PMode.obj hm) r h,
   fun ts c fuel acc r h => parseRun_mono fuel ts c (PMode.arr acc) r h,
   parseString_mono,
   parse_number_mono,
   fun ts c fuel cf h => skipNum_mono fuel ts c cf h⟩

theorem cursor_monotone_witness :
    parseValue ["true"] 0 2 = some (JSONValue.Bool true, 1) ∧
    (0 : Nat) ≤ 1 :=
  ⟨by decide, cursor_monotone.1 ["true"] 0 2 (JSONValue.Bool true, 1) (by decide)⟩

/-- Flushing preserves non-emptiness of all emitted tokens. -/
theorem flushT_nonempty (ts : List String) (cur : List Char)
    (hin : ∀ t ∈ ts, t ≠ "") : ∀ t ∈ flushT ts cur, t ≠ "" := by
  unfold flushT
  split_ifs with hc
  · exact hin
  · intro t ht
    rcases List.mem_append.mp ht with hmem | hmem
    · exact hin t hmem
    · rw [List.mem_singleton.mp hmem]
      exact stringMk_ne_empty cur (by simpa [List.isEmpty_iff] using hc)

/-- Tokens of the form emitted by a flush followed by a one-character
token are all non-empty. -/
theorem flushT_single_nonempty (ts : List String) (cur : List Char) (c : Char)
    (hin : ∀ t ∈ ts, t ≠ "") : ∀ t ∈ flushT ts cur ++ [String.mk [c]], t ≠ "" := by
  intro t ht
  rcases List.mem_append.mp ht with hmem | hmem
  · exact flushT_nonempty ts cur hin t hmem
  · rw [List.mem_singleton.mp hmem]
    exact stringMk_ne_empty _ (by simp)

/-- One tokenizer step preserves non-emptiness of all emitted tokens. -/
theorem tokStep_tokens_nonempty (st st' : TokState) (c : Char)
    (h : tokStep st c = some st') (hin : ∀ t ∈ st.tokens, t ≠ "") :
    ∀ t ∈ st'.tokens, t ≠ "" := by
  unfold tokStep at h
  by_cases h1 : c = '\n' ∨ c = '\r' ∨ c = '\t'
  · rw [if_pos h1] at h
    by_cases hstr : st.in_string = true
    · rw [if_pos hstr] at h; exact Option.noConfusion h
    · rw [if_neg hstr] at h; injection h with h; subst h
      exact flushT_nonempty st.tokens st.curr hin
  rw [if_neg h1] at h
  by_cases h2 : c = '\x7b' ∨ c = '\x7d' ∨ c = '[' ∨ c = ']' ∨ c = ':' ∨ c = ',' ∨
      c = '+' ∨ c = '-' ∨ c = '.'
  · rw [if_pos h2] at h
    by_cases hstr : st.in_string = true
    · rw [if_pos hstr] at h; injection h with h; subst h; exact hin
    · rw [if_neg hstr] at h; injection h with h; subst h
      exact flushT_single_nonempty st.tokens st.curr c hin
  rw [if_neg h2] at h
  by_cases h3 : c = '\\'
  · rw [if_pos h3] at h
    by_cases hstr : st.in_string = true
    · rw [if_pos hstr] at h
      by_cases hesc : st.escape = true
      · rw [if_pos hesc] at h; injection h with h; subst h; exact hin
      · rw [if_neg hesc] at h; injection h with h; subst h; exact hin
    · rw [if_neg hstr] at h; exact Option.noConfusion h
  rw [if_neg h3] at h
  by_cases h4 : c = '/'
  · rw [if_pos h4] at h; injection h with h; subst h; exact hin
  rw [if_neg h4] at h
  by_cases h5 : c = 'b' ∨ c = 'f' ∨ c = 'n' ∨ c = 'r' ∨ c = 't'
  · rw [if_pos h5] at h
    by_cases hesc : st.escape = true
    · rw [if_pos hesc] at h
      by_cases hstr : st.in_string = true
      · rw [if_pos hstr] at h; injection h with h; subst h; exact hin
      · rw [if_neg hstr] at h; exact Option.noConfusion h
    · rw [if_neg hesc] at h; injection h with h; subst h; exact hin
  rw [if_neg h5] at h
  by_cases h6 : c = 'u'
  · rw [if_pos h6] at h; injection h with h; subst h; exact hin
  rw [if_neg h6] at h
  by_cases h7 : c = '"'
  · rw [if_pos h7] at h
    by_cases hesc : st.escape = true
    · rw [if_pos hesc] at h
      by_cases hstr : st.in_string = true
      · rw [if_pos hstr] at h; injection h with h; subst h; exact hin
      · rw [if_neg hstr] at h; exact Option.noConfusion h
    · rw [if_neg hesc] at h; injection h with h; subst h
      exact flushT_single_nonempty st.tokens st.curr c hin
  rw [if_neg h7] at h
  by_cases h8 : c = ' '
  · rw [if_pos h8] at h
    by_cases hstr : st.in_string = true
    · rw [if_pos hstr] at h; injection h with h; subst h; exact hin
    · rw [if_neg hstr] at h; injection h with h; subst h
      exact flushT_nonempty st.tokens st.curr hin
  rw [if_neg h8] at h
  by_cases h9 : c = 'E' ∨ c = 'e'
  · rw [if_pos h9] at h
    by_cases hstr : st.in_string = true
    · rw [if_pos hstr] at h; injection h with h; subst h; exact hin
    · rw [if_neg hstr] at h
      cases hlast : st.curr.getLast? with
      | none =>
        simp only [hlast] at h
        exact Option.noConfusion h
      | some n =>
        simp only [hlast] at h
        have hcur : st.curr ≠ [] := by
          intro hnil
          rw [hnil] at hlast
          simp at hlast
        by_cases hdig : '0' ≤ n ∧ n ≤ '9'
        · rw [if_pos hdig] at h; injection h with h; subst h
          intro t ht
          simp only [List.mem_append, List.mem_cons, List.mem_singleton,
            List.not_mem_nil, or_false] at ht
          rcases ht with hmem | hmem | hmem
          · exact hin t hmem
          · rw [hmem]; exact stringMk_ne_empty _ hcur
          · rw [hmem]; exact stringMk_ne_empty _ (by simp)
        · rw [if_neg hdig] at h; injection h with h; subst h; exact hin
  · rw [if_neg h9] at h; injection h with h; subst h; exact hin

/-- The tokenizer loop preserves non-emptiness of all emitted tokens. -/
theorem tokRun_tokens_nonempty : ∀ (cs : List Char) (st st' : TokState),
    tokRun st cs = some st' → (∀ t ∈ st.tokens, t ≠ "") →
    ∀ t ∈ st'.tokens, t ≠ "" := by
  intro cs
  induction cs with
  | nil =>
    intro st st' h hin
    rw [tokRun] at h
    injection h with h
    subst h
    exact hin
  | cons c cs ih =>
    intro st st' h hin
    rw [tokRun] at h
    split at h
    · exact Option.noConfusion h
    · rename_i st1 hs
      exact ih st1 st' h (tokStep_tokens_nonempty st st1 c hs hin)

/-- C9: whenever `tokenize` succeeds, every token of the returned
sequence is a non-empty string — the tokenizer never emits an empty
token. -/
theorem tokens_nonempty (cs : List Char) (ts : List String)
    (h : tokenize cs = some ts) : ∀ t ∈ ts, t ≠ "" := by
  unfold tokenize at h
  split at h
  · exact Option.noConfusion h
  · rename_i st hr
    split_ifs at h with hc
    injection h with h
    subst h
    exact tokRun_tokens_nonempty cs tokInit st hr
      (by intro t ht; simp [tokInit] at ht)

theorem tokens_nonempty_witness :
    tokenize "1,".data = some ["1", ","] ∧ ("1" : String) ≠ "" :=
  ⟨by decide, tokens_nonempty "1,".data ["1", ","] (by decide) "1" (by simp)⟩

/-- `String.mk` of the character data of a string is that string. -/
theorem string_eta (s : String) : String.mk s.data = s := by cases s; rfl

/-- `flushT` written as an append. -/
theorem flushT_eq (X : List String) (cur : List Char) :
    flushT X cur = X ++ (if cur.isEmpty then [] else [String.mk cur]) := by
  unfold flushT
  split <;> simp

/-- One successful tokenizer step, as a rewrite on `tokRun`. -/
theorem tokRun_cons (st st1 : TokState) (c : Char) (cs : List Char)
    (h : tokStep st c = some st1) : tokRun st (c :: cs) = tokRun st1 cs := by
  simp only [tokRun, h]

/-- Outside a string, structural punctuation and the sign/dot
characters flush and emit themselves. -/
theorem tokStep_clean_emit (T : List String) (cur : List Char) (c : Char)
    (h : c = '\x7b' ∨ c = '\x7d' ∨ c = '[' ∨ c = ']' ∨ c = ':' ∨ c = ',' ∨
      c = '+' ∨ c = '-' ∨ c = '.') :
    tokStep ⟨T, cur, false, false⟩ c =
      some ⟨flushT T cur ++ [String.mk [c]], [], false, false⟩ := by
  rcases h with rfl | rfl | rfl | rfl | rfl | rfl | rfl | rfl | rfl <;> rfl

/-- A run of spaces outside a string flushes nothing when the buffer is
empty. -/
theorem tokRun_spaces : ∀ (n : Nat) (T : List String) (rest : List Char),
    tokRun ⟨T, [], false, false⟩ (List.replicate n ' ' ++ rest) =
      tokRun ⟨T, [], false, false⟩ rest := by
  intro n
  induction n with
  | zero => intro T rest; rfl
  | succ m ih =>
    intro T rest
    rw [List.replicate_succ, List.cons_append,
      tokRun_cons ⟨T, [], false, false⟩ ⟨T, [], false, false⟩ ' ' _ rfl]
    exact ih T rest

/-- Inside a string with no pending escape, any character other than
the quote, the backslash and the illegal whitespace characters is
appended literally. -/
theorem tokStep_in_string (T : List String) (cur : List Char) (c : Char)
    (hq : c ≠ '"') (hn : c ≠ '\n') (hr : c ≠ '\r') (ht : c ≠ '\t')
    (hb : c ≠ '\\') :
    tokStep ⟨T, cur, true, false⟩ c = some ⟨T, cur ++ [c], true, false⟩ := by
  unfold tokStep
  by_cases h1 : c = '\n' ∨ c = '\r' ∨ c = '\t'
  · tauto
  rw [if_neg h1]
  by_cases h2 : c = '\x7b' ∨ c = '\x7d' ∨ c = '[' ∨ c = ']' ∨ c = ':' ∨
      c = ',' ∨ c = '+' ∨ c = '-' ∨ c = '.'
  · rw [if_pos h2]; rfl
  rw [if_neg h2]
  rw [if_neg hb]
  by_cases h4 : c = '/'
  · rw [if_pos h4]
  rw [if_neg h4]
  by_cases h5 : c = 'b' ∨ c = 'f' ∨ c = 'n' ∨ c = 'r' ∨ c = 't'
  · rw [if_pos h5]; rfl
  rw [if_neg h5]
  by_cases h6 : c = 'u'
  · rw [if_pos h6]
  rw [if_neg h6]
  rw [if_neg hq]
  by_cases h8 : c = ' '
  · rw [if_pos h8]; subst h8; rfl
  rw [if_neg h8]
  by_cases h9 : c = 'E' ∨ c = 'e'
  · rw [if_pos h9]; rfl
  · rw [if_neg h9]

/-- Scanning the backslash-doubled text of good string content inside a
string appends exactly the original content to the buffer. -/
theorem tokRun_escB : ∀ (cs : List Char) (T : List String) (cur : List Char),
    (∀ c ∈ cs, c ≠ '"' ∧ c ≠ '\n' ∧ c ≠ '\r' ∧ c ≠ '\t') →
    ∀ rest, tokRun ⟨T, cur, true, false⟩ (escB cs ++ rest) =
      tokRun ⟨T, cur ++ cs, true, false⟩ rest := by
  intro cs
  induction cs with
  | nil => intro T cur hg rest; simp [escB]
  | cons c cs ih =>
    intro T cur hg rest
    obtain ⟨hc, hrest⟩ : (c ≠ '"' ∧ c ≠ '\n' ∧ c ≠ '\r' ∧ c ≠ '\t') ∧
        ∀ x ∈ cs, x ≠ '"' ∧ x ≠ '\n' ∧ x ≠ '\r' ∧ x ≠ '\t' := by
      constructor
      · exact hg c (List.mem_cons_self c cs)
      · intro x hx; exact hg x (List.mem_cons_of_mem c hx)
    by_cases hb : c = '\\'
    · subst hb
      rw [show escB ('\\' :: cs) = '\\' :: '\\' :: escB cs from rfl]
      rw [List.cons_append, List.cons_append]
      rw [tokRun_cons ⟨T, cur, true, false⟩ ⟨T, cur, true, true⟩ '\\' _ rfl,
        tokRun_cons ⟨T, cur, true, true⟩ ⟨T, cur ++ ['\\'], true, false⟩ '\\' _ rfl]
      rw [ih T (cur ++ ['\\']) hrest rest]
      simp
    · rw [show escB (c :: cs) = c :: escB cs from by simp [escB, hb]]
      rw [List.cons_append]
      rw [tokRun_cons _ _ _ _
        (tokStep_in_string T cur c hc.1 hc.2.1 hc.2.2.1 hc.2.2.2 hb)]
      rw [ih T (cur ++ [c]) hrest rest]
      simp

/-- A quote outside a string flushes and emits a quote token. -/
theorem tokStep_quote_open (T : List String) (cur : List Char) :
    tokStep ⟨T, cur, false, false⟩ '"' =
      some ⟨flushT T cur ++ ["\""], [], true, false⟩ := rfl

/-- An unescaped quote inside a string flushes the decoded content and
emits a quote token. -/
theorem tokStep_quote_close (T : List String) (cur : List Char) :
    tokStep ⟨T, cur, true, false⟩ '"' =
      some ⟨flushT T cur ++ ["\""], [], false, false⟩ := rfl

/-- A comma outside a string flushes and emits itself. -/
theorem tokStep_comma (T : List String) (cur : List Char) :
    tokStep ⟨T, cur, false, false⟩ ',' =
      some ⟨flushT T cur ++ [","], [], false, false⟩ := rfl

/-- Scanning the keyword `true` outside a string accumulates it in the
buffer. -/
theorem tokRun_word_true (T : List String) (rest : List Char) :
    tokRun ⟨T, [], false, false⟩ ('t' :: 'r' :: 'u' :: 'e' :: rest) =
      tokRun ⟨T, ['t', 'r', 'u', 'e'], false, false⟩ rest := by
  rw [tokRun_cons ⟨T, [], false, false⟩ ⟨T, ['t'], false, false⟩ 't' _ rfl,
    tokRun_cons ⟨T, ['t'], false, false⟩ ⟨T, ['t', 'r'], false, false⟩ 'r' _ rfl,
    tokRun_cons ⟨T, ['t', 'r'], false, false⟩ ⟨T, ['t', 'r', 'u'], false, false⟩ 'u' _ rfl,
    tokRun_cons ⟨T, ['t', 'r', 'u'], false, false⟩ ⟨T, ['t', 'r', 'u', 'e'], false, false⟩ 'e' _ rfl]

/-- Scanning the keyword `false` outside a string accumulates it in the
buffer. -/
theorem tokRun_word_false (T : List String) (rest : List Char) :
    tokRun ⟨T, [], false, false⟩ ('f' :: 'a' :: 'l' :: 's' :: 'e' :: rest) =
      tokRun ⟨T, ['f', 'a', 'l', 's', 'e'], false, false⟩ rest := by
  rw [tokRun_cons ⟨T, [], false, false⟩ ⟨T, ['f'], false, false⟩ 'f' _ rfl,
    tokRun_cons ⟨T, ['f'], false, false⟩ ⟨T, ['f', 'a'], false, false⟩ 'a' _ rfl,
    tokRun_cons ⟨T, ['f', 'a'], false, false⟩ ⟨T, ['f', 'a', 'l'], false, false⟩ 'l' _ rfl,
    tokRun_cons ⟨T, ['f', 'a', 'l'], false, false⟩ ⟨T, ['f', 'a', 'l', 's'], false, false⟩ 's' _ rfl,
    tokRun_cons ⟨T, ['f', 'a', 'l', 's'], false, false⟩ ⟨T, ['f', 'a', 'l', 's', 'e'], false, false⟩ 'e' _ rfl]

/-- Scanning the keyword `null` outside a string accumulates it in the
buffer. -/
theorem tokRun_word_null (T : List String) (rest : List Char) :
    tokRun ⟨T, [], false, false⟩ ('n' :: 'u' :: 'l' :: 'l' :: rest) =
      tokRun ⟨T, ['n', 'u', 'l', 'l'], false, false⟩ rest := by
  rw [tokRun_cons ⟨T, [], false, false⟩ ⟨T, ['n'], false, false⟩ 'n' _ rfl,
    tokRun_cons ⟨T, ['n'], false, false⟩ ⟨T, ['n', 'u'], false, false⟩ 'u' _ rfl,
    tokRun_cons ⟨T, ['n', 'u'], false, false⟩ ⟨T, ['n', 'u', 'l'], false, false⟩ 'l' _ rfl,
    tokRun_cons ⟨T, ['n', 'u', 'l'], false, false⟩ ⟨T, ['n', 'u', 'l', 'l'], false, false⟩ 'l' _ rfl]

/-- Flushing the pending scalar of a good value completes its token
sequence. -/
theorem flush_pending (v : JSONValue) (hg : goodTree v = true) (Y : List String) :
    flushT (Y ++ emittedOf v) (pendingOf v) = Y ++ toks v := by
  cases v with
  | Obj l => simp [emittedOf, pendingOf, toks, flushT]
  | Arr es => simp [emittedOf, pendingOf, toks, flushT]
  | Str s => simp [emittedOf, pendingOf, toks, flushT]
  | Num q =>
    have hq : q = 1 := by simpa [goodTree] using hg
    subst hq
    simp only [emittedOf, pendingOf, toks]
    rw [show serializeNum (1 : ℚ) = "1" from by decide, flushT_eq]
    simp [string_eta]
  | Bool b =>
    cases b <;>
    · rw [flushT_eq]
      simp [emittedOf, pendingOf, toks, string_eta]
  | Null =>
    rw [flushT_eq]
    simp [emittedOf, pendingOf, toks, string_eta]

/-- Good string content gives the character-level side conditions of
`tokRun_escB`. -/
theorem goodStr_chars (s : String) (h : goodStr s = true) :
    ∀ c ∈ s.data, c ≠ '"' ∧ c ≠ '\n' ∧ c ≠ '\r' ∧ c ≠ '\t' := by
  intro c hc
  simp only [goodStr, List.all_eq_true] at h
  have := h c hc
  simp only [Bool.and_eq_true, bne_iff_ne] at this
  tauto

mutual

/-- Scanning the serialized text of a good value from a clean state
emits its completed tokens and leaves its pending scalar (if any) in
the buffer. -/
theorem tokSer : ∀ (v : JSONValue), goodTree v = true →
    ∀ (T : List String) (ind : Nat) (rest : List Char),
    tokRun ⟨T, [], false, false⟩ ((serializeVal v ind).data ++ rest) =
      tokRun ⟨T ++ emittedOf v, pendingOf v, false, false⟩ rest
  | JSONValue.Obj l => by
    intro hg T ind rest
    have hE : goodEntries l = true := by simpa [goodTree] using hg
    simp only [serializeVal, String.data_append, List.append_assoc]
    simp only [List.cons_append, List.nil_append]
    rw [tokRun_cons ⟨T, [], false, false⟩ ⟨T ++ ["\x7b"], [], false, false⟩ '\x7b' _ rfl]
    rw [tokRun_cons ⟨T ++ ["\x7b"], [], false, false⟩ ⟨T ++ ["\x7b"], [], false, false⟩ '\n' _ rfl]
    rw [tokSerEntries l hE (T ++ ["\x7b"]) (ind + 1) _]
    rw [show (indentStr ind).data = List.replicate (4 * ind) ' ' from rfl]
    rw [show emittedOf (JSONValue.Obj l) = toks (JSONValue.Obj l) from rfl,
      show pendingOf (JSONValue.Obj l) = [] from rfl]
    rw [tokRun_spaces]
    rw [tokRun_cons ⟨(T ++ ["\x7b"]) ++ entsToks l, [], false, false⟩
      ⟨((T ++ ["\x7b"]) ++ entsToks l) ++ ["\x7d"], [], false, false⟩ '\x7d' _ rfl]
    simp [toks, List.append_assoc]
  | JSONValue.Arr es => by
    intro hg T ind rest
    have hE : goodElems es = true := by simpa [goodTree] using hg
    simp only [serializeVal, String.data_append, List.append_assoc]
    simp only [List.cons_append, List.nil_append]
    rw [tokRun_cons ⟨T, [], false, false⟩ ⟨T ++ ["["], [], false, false⟩ '[' _ rfl]
    rw [tokRun_cons ⟨T ++ ["["], [], false, false⟩ ⟨T ++ ["["], [], false, false⟩ '\n' _ rfl]
    rw [tokSerElems es hE (T ++ ["["]) (ind + 1) _]
    rw [show (indentStr ind).data = List.replicate (4 * ind) ' ' from rfl]
    rw [show emittedOf (JSONValue.Arr es) = toks (JSONValue.Arr es) from rfl,
      show pendingOf (JSONValue.Arr es) = [] from rfl]
    rw [tokRun_spaces]
    rw [tokRun_cons ⟨(T ++ ["["]) ++ elemsToks es, [], false, false⟩
      ⟨((T ++ ["["]) ++ elemsToks es) ++ ["]"], [], false, false⟩ ']' _ rfl]
    simp [toks, List.append_assoc]
  | JSONValue.Str s => by
    intro hg T ind rest
    have hks := goodStr_chars s (by simpa [goodTree] using hg)
    simp only [serializeVal, String.data_append, List.append_assoc]
    simp only [List.cons_append, List.nil_append]
    rw [tokRun_cons ⟨T, [], false, false⟩ ⟨T ++ ["\""], [], true, false⟩ '"' _ rfl]
    rw [tokRun_escB s.data (T ++ ["\""]) [] hks _]
    simp only [List.nil_append]
    rw [tokRun_cons ⟨T ++ ["\""], s.data, true, false⟩
      ⟨flushT (T ++ ["\""]) s.data ++ ["\""], [], false, false⟩ '"'
      _ (tokStep_quote_close (T ++ ["\""]) s.data)]
    rw [show emittedOf (JSONValue.Str s) = toks (JSONValue.Str s) from rfl,
      show pendingOf (JSONValue.Str s) = [] from rfl]
    rw [flushT_eq]
    simp [toks, string_eta, List.append_assoc]
  | JSONValue.Num q => by
    intro hg T ind rest
    have hq : q = 1 := by simpa [goodTree] using hg
    subst hq
    simp only [serializeVal]
    rw [show serializeNum (1 : ℚ) = "1" from by decide]
    rw [show ("1").data ++ rest = '1' :: rest from rfl]
    rw [tokRun_cons ⟨T, [], false, false⟩ ⟨T, ['1'], false, false⟩ '1' _ rfl]
    simp only [emittedOf, pendingOf]
    rw [show serializeNum (1 : ℚ) = "1" from by decide]
    simp
  | JSONValue.Bool b => by
    intro hg T ind rest
    cases b
    · simp only [serializeVal, Bool.false_eq_true, if_false]
      rw [show ("false").data ++ rest = 'f' :: 'a' :: 'l' :: 's' :: 'e' :: rest from rfl]
      rw [tokRun_word_false]
      simp only [emittedOf, pendingOf, Bool.false_eq_true, if_false]
      simp
    · simp only [serializeVal, if_true]
      rw [show ("true").data ++ rest = 't' :: 'r' :: 'u' :: 'e' :: rest from rfl]
      rw [tokRun_word_true]
      simp only [emittedOf, pendingOf, if_true]
      simp
  | JSONValue.Null => by
    intro hg T ind rest
    simp only [serializeVal]
    rw [show ("null").data ++ rest = 'n' :: 'u' :: 'l' :: 'l' :: rest from rfl]
    rw [tokRun_word_null]
    simp only [emittedOf, pendingOf]
    simp

/-- Scanning serialized object entries from a clean state emits their
tokens and returns to a clean state. -/
theorem tokSerEntries : ∀ (l : List (String × JSONValue)), goodEntries l = true →
    ∀ (T : List String) (ind : Nat) (rest : List Char),
    tokRun ⟨T, [], false, false⟩ ((serializeEntries l ind).data ++ rest) =
      tokRun ⟨T ++ entsToks l, [], false, false⟩ rest
  | [] => by
    intro hg T ind rest
    simp only [serializeEntries, entsToks]
    simp
  | (k, v) :: rl => by
    intro hg T ind rest
    simp only [goodEntries, Bool.and_eq_true] at hg
    obtain ⟨⟨⟨hk, hv⟩, hall⟩, hrl⟩ := hg
    have hks := goodStr_chars k hk
    simp only [serializeEntries, String.data_append, List.append_assoc]
    rw [show (indentStr ind).data = List.replicate (4 * ind) ' ' from rfl]
    rw [tokRun_spaces]
    simp only [List.cons_append, List.nil_append]
    rw [tokRun_cons ⟨T, [], false, false⟩ ⟨T ++ ["\""], [], true, false⟩ '"' _ rfl]
    rw [tokRun_escB k.data (T ++ ["\""]) [] hks _]
    simp only [List.nil_append]
    rw [tokRun_cons ⟨T ++ ["\""], k.data, true, false⟩
      ⟨flushT (T ++ ["\""]) k.data ++ ["\""], [], false, false⟩ '"'
      _ (tokStep_quote_close (T ++ ["\""]) k.data)]
    rw [tokRun_cons ⟨flushT (T ++ ["\""]) k.data ++ ["\""], [], false, false⟩
      ⟨(flushT (T ++ ["\""]) k.data ++ ["\""]) ++ [":"], [], false, false⟩ ':' _ rfl]
    rw [tokRun_cons ⟨(flushT (T ++ ["\""]) k.data ++ ["\""]) ++ [":"], [], false, false⟩
      ⟨(flushT (T ++ ["\""]) k.data ++ ["\""]) ++ [":"], [], false, false⟩ ' ' _ rfl]
    rw [tokSer v hv ((flushT (T ++ ["\""]) k.data ++ ["\""]) ++ [":"]) ind _]
    rw [tokRun_cons
      ⟨((flushT (T ++ ["\""]) k.data ++ ["\""]) ++ [":"]) ++ emittedOf v,
        pendingOf v, false, false⟩
      ⟨flushT (((flushT (T ++ ["\""]) k.data ++ ["\""]) ++ [":"]) ++ emittedOf v)
          (pendingOf v) ++ [","], [], false, false⟩ ','
      _ (tokStep_comma _ _)]
    rw [flush_pending v hv ((flushT (T ++ ["\""]) k.data ++ ["\""]) ++ [":"])]
    rw [tokRun_cons
      ⟨(((flushT (T ++ ["\""]) k.data ++ ["\""]) ++ [":"]) ++ toks v) ++ [","],
        [], false, false⟩
      ⟨(((flushT (T ++ ["\""]) k.data ++ ["\""]) ++ [":"]) ++ toks v) ++ [","],
        [], false, false⟩ '\n' _ rfl]
    rw [tokSerEntries rl hrl
      ((((flushT (T ++ ["\""]) k.data ++ ["\""]) ++ [":"]) ++ toks v) ++ [","]) ind rest]
    rw [flushT_eq]
    simp [entsToks, string_eta, List.append_assoc]

/-- Scanning serialized array elements from a clean state emits their
tokens and returns to a clean state. -/
theorem tokSerElems : ∀ (es : List JSONValue), goodElems es = true →
    ∀ (T : List String) (ind : Nat) (rest : List Char),
    tokRun ⟨T, [], false, false⟩ ((serializeElems es ind).data ++ rest) =
      tokRun ⟨T ++ elemsToks es, [], false, false⟩ rest
  | [] => by
    intro hg T ind rest
    simp only [serializeElems, elemsToks]
    simp
  | v :: rl => by
    intro hg T ind rest
    simp only [goodElems, Bool.and_eq_true] at hg
    obtain ⟨hv, hrl⟩ := hg
    simp only [serializeElems, String.data_append, List.append_assoc]
    rw [show (indentStr ind).data = List.replicate (4 * ind) ' ' from rfl]
    rw [tokRun_spaces]
    simp only [List.cons_append, List.nil_append]
    rw [tokSer v hv T ind _]
    rw [tokRun_cons ⟨T ++ emittedOf v, pendingOf v, false, false⟩
      ⟨flushT (T ++ emittedOf v) (pendingOf v) ++ [","], [], false, false⟩ ','
      _ (tokStep_comma _ _)]
    rw [flush_pending v hv T]
    rw [tokRun_cons ⟨(T ++ toks v) ++ [","], [], false, false⟩
      ⟨(T ++ toks v) ++ [","], [], false, false⟩ '\n' _ rfl]
    rw [tokSerElems rl hrl ((T ++ toks v) ++ [","]) ind rest]
    simp [elemsToks, List.append_assoc]

end

/-- Reading a token at an offset past a prefix. -/
theorem get_pre (pre l : List String) (i : Nat) :
    (pre ++ l).get? (pre.length + i) = l.get? i := by
  rw [List.get?_append_right (Nat.le_add_right pre.length i)]
  simp

/-- Reading the token right after a prefix. -/
theorem get_pre0 (pre l : List String) :
    (pre ++ l).get? pre.length = l.get? 0 := by
  simpa using get_pre pre l 0

/-- The skip loop stops on a forbidden token. -/
theorem skipNum_stop (fuel : Nat) (ts : List String) (c : Nat) (x : String)
    (hf : 1 ≤ fuel) (hg : ts.get? c = some x)
    (hx : x = "," ∨ x = "\"" ∨ x = "]" ∨ x = "\x7d") :
    skipNum ts c fuel = some c := by
  cases fuel with
  | zero => omega
  | succ n =>
    rw [skipNum]
    simp only [hg]
    rw [if_pos hx]

/-- The skip loop advances over a non-forbidden token. -/
theorem skipNum_step (fuel : Nat) (ts : List String) (c : Nat) (t : String)
    (hg : ts.get? c = some t)
    (ht : ¬(t = "," ∨ t = "\"" ∨ t = "]" ∨ t = "\x7d")) :
    skipNum ts c (fuel + 1) = skipNum ts (c + 1) fuel := by
  rw [skipNum]
  simp only [hg]
  rw [if_neg ht]

/-- Inserting a fresh key appends the binding. -/
theorem hmInsert_append : ∀ (acc : List (String × JSONValue)) (k : String)
    (v : JSONValue), (∀ p ∈ acc, p.1 ≠ k) →
    hmInsert acc k v = acc ++ [(k, v)]
  | [], k, v, _ => rfl
  | (k', v') :: r, k, v, h => by
    have hk : k' ≠ k := h (k', v') (List.mem_cons_self _ _)
    simp only [hmInsert, if_neg hk, List.cons_append]
    rw [hmInsert_append r k v (fun p hp => h p (List.mem_cons_of_mem _ hp))]

/-- The first token of a good value's serialization is never a
structural closer. -/
theorem toks_get0 : ∀ (v : JSONValue), goodTree v = true →
    ∃ t0, (toks v).get? 0 = some t0 ∧ t0 ≠ "]" := by
  intro v hg
  cases v with
  | Obj l => exact ⟨"\x7b", by simp [toks], by decide⟩
  | Arr es => exact ⟨"[", by simp [toks], by decide⟩
  | Str s => exact ⟨"\"", by simp [toks], by decide⟩
  | Num q =>
    have hq : q = 1 := by simpa [goodTree] using hg
    subst hq
    exact ⟨serializeNum 1, by simp [toks], by decide⟩
  | Bool b =>
    cases b
    · exact ⟨"false", by simp [toks], by decide⟩
    · exact ⟨"true", by simp [toks], by decide⟩
  | Null => exact ⟨"null", by simp [toks], by decide⟩

mutual

/-- Parsing the token sequence of a good serialized value from just
after a prefix consumes exactly its tokens and rebuilds the value.  The
token after it must be one of the separators the serializer emits. -/
theorem parSer : ∀ (v : JSONValue), goodTree v = true →
    ∀ (pre rest : List String) (x : String) (fuel : Nat),
    rest.get? 0 = some x → (x = "," ∨ x = "]" ∨ x = "\x7d") →
    (toks v).length + 1 ≤ fuel →
    parseRun fuel (pre ++ (toks v ++ rest)) pre.length PMode.val =
      some (v, pre.length + (toks v).length)
  | JSONValue.Num q => by
    intro hg pre rest x fuel hx hxf hfuel
    have hq : q = 1 := by simpa [goodTree] using hg
    subst hq
    rw [show toks (JSONValue.Num 1) = ["1"] from by decide] at hfuel ⊢
    obtain ⟨f, rfl⟩ : ∃ f, fuel = f + 1 := ⟨fuel - 1, by omega⟩
    rw [parseRun, get_pre0]
    simp only [List.cons_append, List.nil_append, List.get?_cons_zero]
    rw [if_neg (by decide), if_neg (by decide), if_neg (by decide),
      if_neg (by decide), if_neg (by decide), if_neg (by decide)]
    have hget1 : (pre ++ ("1" :: rest)).get? (pre.length + 1) = some x := by
      rw [get_pre pre ("1" :: rest) 1]
      simpa using hx
    rw [skipNum_step (pre ++ ("1" :: rest)).length (pre ++ ("1" :: rest))
      pre.length "1" (by rw [get_pre0]; simp) (by decide)]
    rw [skipNum_stop (pre ++ ("1" :: rest)).length (pre ++ ("1" :: rest))
      (pre.length + 1) x
      (by simp only [List.length_append, List.length_cons]; omega) hget1 (by tauto)]
    simp
  | JSONValue.Bool b => by
    intro hg pre rest x fuel hx hxf hfuel
    cases b
    · rw [show toks (JSONValue.Bool false) = ["false"] from by decide] at hfuel ⊢
      obtain ⟨f, rfl⟩ : ∃ f, fuel = f + 1 := ⟨fuel - 1, by omega⟩
      rw [parseRun, get_pre0]
      simp only [List.cons_append, List.nil_append, List.get?_cons_zero]
      rw [if_neg (by decide), if_neg (by decide), if_neg (by decide),
        if_neg (by decide)]
      simp
    · rw [show toks (JSONValue.Bool true) = ["true"] from by decide] at hfuel ⊢
      obtain ⟨f, rfl⟩ : ∃ f, fuel = f + 1 := ⟨fuel - 1, by omega⟩
      rw [parseRun, get_pre0]
      simp only [List.cons_append, List.nil_append, List.get?_cons_zero]
      rw [if_neg (by decide), if_neg (by decide), if_neg (by decide)]
      simp
  | JSONValue.Null => by
    intro hg pre rest x fuel hx hxf hfuel
    rw [show toks JSONValue.Null = ["null"] from by decide] at hfuel ⊢
    obtain ⟨f, rfl⟩ : ∃ f, fuel = f + 1 := ⟨fuel - 1, by omega⟩
    rw [parseRun, get_pre0]
    simp only [List.cons_append, List.nil_append, List.get?_cons_zero]
    rw [if_neg (by decide), if_neg (by decide), if_neg (by decide),
      if_neg (by decide), if_neg (by decide)]
    simp
  | JSONValue.Str s => by
    intro hg pre rest x fuel hx hxf hfuel
    by_cases hs : s.data.isEmpty
    · have hse : s = "" := by
        cases s with
        | mk d => simp only [List.isEmpty_iff] at hs; simp [hs]
      subst hse
      rw [show toks (JSONValue.Str "") = ["\"", "\""] from by simp [toks]] at hfuel ⊢
      obtain ⟨f, rfl⟩ : ∃ f, fuel = f + 1 := ⟨fuel - 1, by omega⟩
      have hxq : x ≠ "\"" := by rcases hxf with rfl | rfl | rfl <;> decide
      have hps : parseString (pre ++ ("\"" :: "\"" :: rest)) (pre.length + 1) =
          some ("", pre.length + 2) := by
        unfold parseString
        rw [get_pre pre ("\"" :: "\"" :: rest) 1]
        simp only [List.get?_cons_succ, List.get?_cons_zero]
        rw [show pre.length + 1 + 1 = pre.length + 2 from rfl,
          get_pre pre ("\"" :: "\"" :: rest) 2]
        simp only [List.get?_cons_succ, List.get?_cons_zero]
        rw [hx]
        simp [if_neg hxq]
      rw [parseRun, get_pre0]
      simp only [List.cons_append, List.nil_append, List.get?_cons_zero]
      rw [if_neg (by decide), if_neg (by decide), hps]
      simp
    · have hsd : s.data.isEmpty = false := by simpa using hs
      rw [show toks (JSONValue.Str s) = ["\"", s, "\""] from by
        simp [toks, hsd]] at hfuel ⊢
      obtain ⟨f, rfl⟩ : ∃ f, fuel = f + 1 := ⟨fuel - 1, by omega⟩
      have hps : parseString (pre ++ ("\"" :: s :: "\"" :: rest)) (pre.length + 1) =
          some (s, pre.length + 1 + 2) := by
        unfold parseString
        rw [get_pre pre ("\"" :: s :: "\"" :: rest) 1]
        simp only [List.get?_cons_succ, List.get?_cons_zero]
        rw [show pre.length + 1 + 1 = pre.length + 2 from rfl,
          get_pre pre ("\"" :: s :: "\"" :: rest) 2]
        simp only [List.get?_cons_succ, List.get?_cons_zero]
        simp
      rw [parseRun, get_pre0]
      simp only [List.cons_append, List.nil_append, List.get?_cons_zero]
      rw [if_neg (by decide), if_neg (by decide), hps]
      simp +arith
  | JSONValue.Obj l => by
    intro hg pre rest x fuel hx hxf hfuel
    have hE : goodEntries l = true := by simpa [goodTree] using hg
    rw [show toks (JSONValue.Obj l) = "\x7b" :: (entsToks l ++ ["\x7d"]) from by
      simp [toks]] at hfuel ⊢
    obtain ⟨f, rfl⟩ : ∃ f, fuel = f + 1 := ⟨fuel - 1, by omega⟩
    rw [parseRun, get_pre0]
    simp only [List.cons_append, List.nil_append, List.get?_cons_zero]
    first
    | rw [if_pos rfl]
    | rw [if_true]
    simp only [List.append_assoc, List.singleton_append]
    rw [show pre ++ ("\x7b" :: (entsToks l ++ ("\x7d" :: rest))) =
      (pre ++ ["\x7b"]) ++ (entsToks l ++ ("\x7d" :: rest)) from by simp]
    rw [show pre.length + 1 = (pre ++ ["\x7b"]).length from by simp <;> omega]
    rw [parSerEntries l hE (pre ++ ["\x7b"]) rest [] f (by simp)
      (by simp at hfuel ⊢; omega)]
    simp +arith
  | JSONValue.Arr es => by
    intro hg pre rest x fuel hx hxf hfuel
    have hE : goodElems es = true := by simpa [goodTree] using hg
    rw [show toks (JSONValue.Arr es) = "[" :: (elemsToks es ++ ["]"]) from by
      simp [toks]] at hfuel ⊢
    obtain ⟨f, rfl⟩ : ∃ f, fuel = f + 1 := ⟨fuel - 1, by omega⟩
    rw [parseRun, get_pre0]
    simp only [List.cons_append, List.nil_append, List.get?_cons_zero]
    rw [if_neg (by decide)]
    first
    | rw [if_pos rfl]
    | rw [if_true]
    simp only [List.append_assoc, List.singleton_append]
    rw [show pre ++ ("[" :: (elemsToks es ++ ("]" :: rest))) =
      (pre ++ ["["]) ++ (elemsToks es ++ ("]" :: rest)) from by simp]
    rw [show pre.length + 1 = (pre ++ ["["]).length from by simp <;> omega]
    rw [parSerElems es hE (pre ++ ["["]) rest [] f (by simp at hfuel ⊢; omega)]
    simp +arith

/-- Parsing the token sequence of good serialized object entries up to
the closing brace extends the accumulated map by exactly those entries. -/
theorem parSerEntries : ∀ (l : List (String × JSONValue)), goodEntries l = true →
    ∀ (pre rest : List String) (acc : List (String × JSONValue)) (fuel : Nat),
    (∀ p ∈ acc, ∀ q ∈ l, p.1 ≠ q.1) →
    (entsToks l).length + 1 ≤ fuel →
    parseRun fuel (pre ++ (entsToks l ++ ("\x7d" :: rest))) pre.length
        (PMode.obj acc) =
      some (JSONValue.Obj (acc ++ l), pre.length + (entsToks l).length + 1)
  | [] => by
    intro hg pre rest acc fuel hdisj hfuel
    obtain ⟨f, rfl⟩ : ∃ f, fuel = f + 1 := ⟨fuel - 1, by omega⟩
    rw [parseRun]
    rw [show pre ++ (entsToks [] ++ ("\x7d" :: rest)) = pre ++ ("\x7d" :: rest)
      from by simp [entsToks]]
    rw [get_pre0]
    simp only [List.get?_cons_zero]
    first
    | rw [if_pos rfl]
    | rw [if_true]
    simp [entsToks]
  | (k, v) :: rl => by
    intro hg pre rest acc fuel hdisj hfuel
    simp only [goodEntries, Bool.and_eq_true] at hg
    obtain ⟨⟨⟨hk, hv⟩, hall⟩, hrl⟩ := hg
    obtain ⟨f, rfl⟩ : ∃ f, fuel = f + 1 := ⟨fuel - 1, by omega⟩
    have hfrfresh : ∀ p ∈ acc ++ [(k, v)], ∀ q ∈ rl, p.1 ≠ q.1 := by
      intro p hp q hq
      rcases List.mem_append.mp hp with hpa | hpk
      · exact hdisj p hpa q (List.mem_cons_of_mem _ hq)
      · rw [List.mem_singleton.mp hpk]
        simp only [List.all_eq_true] at hall
        have := hall q hq
        simpa [bne_iff_ne, ne_comm] using this
    by_cases hke : k.data.isEmpty
    · have hkee : k = "" := by
        cases k with
        | mk d => simp only [List.isEmpty_iff] at hke; simp [hke]
      subst hkee
      have hts : pre ++ (entsToks (("", v) :: rl) ++ ("\x7d" :: rest)) =
          pre ++ ("\"" :: "\"" :: ":" ::
            (toks v ++ ("," :: (entsToks rl ++ ("\x7d" :: rest))))) := by
        simp [entsToks]
      rw [parseRun, hts, get_pre0]
      simp only [List.get?_cons_zero]
      rw [if_neg (by decide)]
      first
      | rw [if_pos rfl]
      | rw [if_true]
      have hps : parseString (pre ++ ("\"" :: "\"" :: ":" ::
          (toks v ++ ("," :: (entsToks rl ++ ("\x7d" :: rest)))))) (pre.length + 1) =
          some ("", pre.length + 2) := by
        unfold parseString
        rw [get_pre pre _ 1]
        simp only [List.get?_cons_succ, List.get?_cons_zero]
        rw [show pre.length + 1 + 1 = pre.length + 2 from rfl, get_pre pre _ 2]
        simp only [List.get?_cons_succ, List.get?_cons_zero]
        simp
      rw [hps]
      simp only []
      rw [get_pre pre _ 2]
      simp only [List.get?_cons_succ, List.get?_cons_zero]
      first
      | rw [if_pos rfl]
      | rw [if_true]
      rw [show pre.length + 2 + 1 = (pre ++ ["\"", "\"", ":"]).length from by simp <;> omega]
      rw [show pre ++ ("\"" :: "\"" :: ":" ::
          (toks v ++ ("," :: (entsToks rl ++ ("\x7d" :: rest))))) =
        (pre ++ ["\"", "\"", ":"]) ++
          (toks v ++ ("," :: (entsToks rl ++ ("\x7d" :: rest)))) from by simp]
      rw [parSer v hv (pre ++ ["\"", "\"", ":"])
        ("," :: (entsToks rl ++ ("\x7d" :: rest))) "," f (by simp) (by tauto)
        (by simp only [entsToks, List.length_append, List.length_cons,
              List.nil_append, List.singleton_append] at hfuel ⊢; omega)]
      simp only []
      rw [show (pre ++ ["\"", "\"", ":"]).length + (toks v).length =
        ((pre ++ ["\"", "\"", ":"]) ++ toks v).length from by simp <;> omega]
      rw [show (pre ++ ["\"", "\"", ":"]) ++
          (toks v ++ ("," :: (entsToks rl ++ ("\x7d" :: rest)))) =
        ((pre ++ ["\"", "\"", ":"]) ++ toks v) ++
          ("," :: (entsToks rl ++ ("\x7d" :: rest))) from by simp]
      rw [get_pre0]
      simp only [List.get?_cons_zero]
      first
      | rw [if_pos rfl]
      | rw [if_true]
      rw [hmInsert_append acc "" v
        (fun p hp => hdisj p hp ("", v) (List.mem_cons_self _ _))]
      rw [show ((pre ++ ["\"", "\"", ":"]) ++ toks v).length + 1 =
        (((pre ++ ["\"", "\"", ":"]) ++ toks v) ++ [","]).length from by simp <;> omega]
      rw [show ((pre ++ ["\"", "\"", ":"]) ++ toks v) ++
          ("," :: (entsToks rl ++ ("\x7d" :: rest))) =
        (((pre ++ ["\"", "\"", ":"]) ++ toks v) ++ [","]) ++
          (entsToks rl ++ ("\x7d" :: rest)) from by simp]
      rw [parSerEntries rl hrl (((pre ++ ["\"", "\"", ":"]) ++ toks v) ++ [","])
        rest (acc ++ [("", v)]) f hfrfresh
        (by simp only [entsToks, List.length_append, List.length_cons,
              List.nil_append, List.singleton_append] at hfuel ⊢; omega)]
      simp only [entsToks]
      simp +arith [List.append_assoc]
    · have hked : k.data.isEmpty = false := by simpa using hke
      have hts : pre ++ (entsToks ((k, v) :: rl) ++ ("\x7d" :: rest)) =
          pre ++ ("\"" :: k :: "\"" :: ":" ::
            (toks v ++ ("," :: (entsToks rl ++ ("\x7d" :: rest))))) := by
        simp [entsToks, hked]
      rw [parseRun, hts, get_pre0]
      simp only [List.get?_cons_zero]
      rw [if_neg (by decide)]
      first
      | rw [if_pos rfl]
      | rw [if_true]
      have hps : parseString (pre ++ ("\"" :: k :: "\"" :: ":" ::
          (toks v ++ ("," :: (entsToks rl ++ ("\x7d" :: rest)))))) (pre.length + 1) =
          some (k, pre.length + 1 + 2) := by
        unfold parseString
        rw [get_pre pre _ 1]
        simp only [List.get?_cons_succ, List.get?_cons_zero]
        rw [show pre.length + 1 + 1 = pre.length + 2 from rfl, get_pre pre _ 2]
        simp only [List.get?_cons_succ, List.get?_cons_zero]
        simp
      rw [hps]
      simp only []
      rw [show pre.length + 1 + 2 = pre.length + 3 from rfl, get_pre pre _ 3]
      simp only [List.get?_cons_succ, List.get?_cons_zero]
      first
      | rw [if_pos rfl]
      | rw [if_true]
      rw [show pre.length + 3 + 1 = (pre ++ ["\"", k, "\"", ":"]).length from by simp <;> omega]
      rw [show pre ++ ("\"" :: k :: "\"" :: ":" ::
          (toks v ++ ("," :: (entsToks rl ++ ("\x7d" :: rest))))) =
        (pre ++ ["\"", k, "\"", ":"]) ++
          (toks v ++ ("," :: (entsToks rl ++ ("\x7d" :: rest)))) from by simp]
      rw [parSer v hv (pre ++ ["\"", k, "\"", ":"])
        ("," :: (entsToks rl ++ ("\x7d" :: rest))) "," f (by simp) (by tauto)
        (by simp only [entsToks, hked, List.length_append, List.length_cons,
              List.nil_append, List.singleton_append] at hfuel ⊢; omega)]
      simp only []
      rw [show (pre ++ ["\"", k, "\"", ":"]).length + (toks v).length =
        ((pre ++ ["\"", k, "\"", ":"]) ++ toks v).length from by simp <;> omega]
      rw [show (pre ++ ["\"", k, "\"", ":"]) ++
          (toks v ++ ("," :: (entsToks rl ++ ("\x7d" :: rest)))) =
        ((pre ++ ["\"", k, "\"", ":"]) ++ toks v) ++
          ("," :: (entsToks rl ++ ("\x7d" :: rest))) from by simp]
      rw [get_pre0]
      simp only [List.get?_cons_zero]
      first
      | rw [if_pos rfl]
      | rw [if_true]
      rw [hmInsert_append acc k v
        (fun p hp => hdisj p hp (k, v) (List.mem_cons_self _ _))]
      rw [show ((pre ++ ["\"", k, "\"", ":"]) ++ toks v).length + 1 =
        (((pre ++ ["\"", k, "\"", ":"]) ++ toks v) ++ [","]).length from by simp <;> omega]
      rw [show ((pre ++ ["\"", k, "\"", ":"]) ++ toks v) ++
          ("," :: (entsToks rl ++ ("\x7d" :: rest))) =
        (((pre ++ ["\"", k, "\"", ":"]) ++ toks v) ++ [","]) ++
          (entsToks rl ++ ("\x7d" :: rest)) from by simp]
      rw [parSerEntries rl hrl (((pre ++ ["\"", k, "\"", ":"]) ++ toks v) ++ [","])
        rest (acc ++ [(k, v)]) f hfrfresh
        (by simp only [entsToks, hked, List.length_append, List.length_cons,
              List.nil_append, List.singleton_append] at hfuel ⊢; omega)]
      simp only [entsToks, hked]
      simp +arith [List.append_assoc]

/-- Parsing the token sequence of good serialized array elements up to
the closing bracket extends the accumulated vector by exactly those
elements. -/
theorem parSerElems : ∀ (es : List JSONValue), goodElems es = true →
    ∀ (pre rest : List String) (acc : List JSONValue) (fuel : Nat),
    (elemsToks es).length + 1 ≤ fuel →
    parseRun fuel (pre ++ (elemsToks es ++ ("]" :: rest))) pre.length
        (PMode.arr acc) =
      some (JSONValue.Arr (acc ++ es), pre.length + (elemsToks es).length + 1)
  | [] => by
    intro hg pre rest acc fuel hfuel
    obtain ⟨f, rfl⟩ : ∃ f, fuel = f + 1 := ⟨fuel - 1, by omega⟩
    rw [parseRun]
    rw [show pre ++ (elemsToks [] ++ ("]" :: rest)) = pre ++ ("]" :: rest)
      from by simp [elemsToks]]
    rw [get_pre0]
    simp only [List.get?_cons_zero]
    first
    | rw [if_pos rfl]
    | rw [if_true]
    simp [elemsToks]
  | v :: rl => by
    intro hg pre rest acc fuel hfuel
    simp only [goodElems, Bool.and_eq_true] at hg
    obtain ⟨hv, hrl⟩ := hg
    obtain ⟨f, rfl⟩ : ∃ f, fuel = f + 1 := ⟨fuel - 1, by omega⟩
    have hts : pre ++ (elemsToks (v :: rl) ++ ("]" :: rest)) =
        pre ++ (toks v ++ ("," :: (elemsToks rl ++ ("]" :: rest)))) := by
      simp [elemsToks]
    obtain ⟨t0, ht0, ht0n⟩ := toks_get0 v hv
    have hlt : 0 < (toks v).length := by
      by_contra hz
      simp only [Nat.not_lt, Nat.le_zero] at hz
      rw [List.get?_eq_none.mpr (by omega)] at ht0
      exact Option.noConfusion ht0
    rw [parseRun, hts, get_pre0, List.get?_append hlt, ht0]
    simp only []
    rw [if_neg ht0n]
    rw [parSer v hv pre ("," :: (elemsToks rl ++ ("]" :: rest))) "," f
      (by simp) (by tauto)
      (by simp only [elemsToks, List.length_append, List.length_cons] at hfuel ⊢
          omega)]
    simp only []
    rw [show pre.length + (toks v).length = (pre ++ toks v).length from by simp <;> omega]
    rw [show pre ++ (toks v ++ ("," :: (elemsToks rl ++ ("]" :: rest)))) =
      (pre ++ toks v) ++ ("," :: (elemsToks rl ++ ("]" :: rest))) from by simp]
    rw [get_pre0]
    simp only [List.get?_cons_zero]
    first
    | rw [if_pos rfl]
    | rw [if_true]
    rw [show (pre ++ toks v).length + 1 = ((pre ++ toks v) ++ [","]).length
      from by simp <;> omega]
    rw [show (pre ++ toks v) ++ ("," :: (elemsToks rl ++ ("]" :: rest))) =
      ((pre ++ toks v) ++ [","]) ++ (elemsToks rl ++ ("]" :: rest)) from by simp]
    rw [parSerElems rl hrl ((pre ++ toks v) ++ [","]) rest (acc ++ [v]) f
      (by simp only [elemsToks, List.length_append, List.length_cons] at hfuel ⊢
          omega)]
    simp only [elemsToks]
    simp +arith [List.append_assoc]

end

/-- Tokenizing the serialized text of a good container recovers exactly
its token sequence (the closing brace/bracket flushes the last token,
so the end-of-input buffer check passes). -/
theorem tokenize_serialize (v : JSONValue) (hg : goodTree v = true)
    (hc : isContainer v = true) :
    tokenize (serialize v).data = some (toks v) := by
  have h := tokSer v hg [] 0 []
  rw [List.append_nil] at h
  unfold tokenize
  rw [show tokInit = (⟨[], [], false, false⟩ : TokState) from rfl]
  rw [show (serialize v).data = (serializeVal v 0).data from rfl]
  rw [h]
  cases v with
  | Obj l => simp [tokRun, emittedOf, pendingOf, toks]
  | Arr es => simp [tokRun, emittedOf, pendingOf, toks]
  | Str s => simp [isContainer] at hc
  | Num q => simp [isContainer] at hc
  | Bool b => simp [isContainer] at hc
  | Null => simp [isContainer] at hc

/-- C3 amended: for every value tree that is an object or array at top
level, in which every number is `1.0`, every string and key avoids the
quote and whitespace control characters, and object keys are
duplicate-free, `parse(serialize(v))` succeeds and returns exactly
`v`. -/
theorem roundtrip_on_good_containers (v : JSONValue) (hg : goodTree v = true)
    (hc : isContainer v = true) :
    parse_json (serialize v).data = some v := by
  have ht := tokenize_serialize v hg hc
  cases v with
  | Obj l =>
    have hE : goodEntries l = true := by simpa [goodTree] using hg
    have hp : parseValue (toks (JSONValue.Obj l)) 0
        ((toks (JSONValue.Obj l)).length + 1) =
        some (JSONValue.Obj l, (toks (JSONValue.Obj l)).length) := by
      unfold parseValue
      rw [parseRun]
      rw [show toks (JSONValue.Obj l) = "\x7b" :: (entsToks l ++ ["\x7d"]) from by
        simp [toks]]
      simp only [List.get?_cons_zero]
      first
      | rw [if_pos rfl]
      | rw [if_true]
      rw [show ("\x7b" :: (entsToks l ++ ["\x7d"]) : List String) =
        ["\x7b"] ++ (entsToks l ++ ("\x7d" :: [])) from by simp]
      rw [show (0 + 1 : Nat) = (["\x7b"] : List String).length from rfl]
      rw [parSerEntries l hE ["\x7b"] [] [] _ (by simp)
        (by simp only [List.length_append, List.length_cons, List.length_nil]
            omega)]
      simp +arith
    simp [parse_json, ht, hp]
  | Arr es =>
    have hE : goodElems es = true := by simpa [goodTree] using hg
    have hp : parseValue (toks (JSONValue.Arr es)) 0
        ((toks (JSONValue.Arr es)).length + 1) =
        some (JSONValue.Arr es, (toks (JSONValue.Arr es)).length) := by
      unfold parseValue
      rw [parseRun]
      rw [show toks (JSONValue.Arr es) = "[" :: (elemsToks es ++ ["]"]) from by
        simp [toks]]
      simp only [List.get?_cons_zero]
      rw [if_neg (by decide)]
      first
      | rw [if_pos rfl]
      | rw [if_true]
      rw [show ("[" :: (elemsToks es ++ ["]"]) : List String) =
        ["["] ++ (elemsToks es ++ ("]" :: [])) from by simp]
      rw [show (0 + 1 : Nat) = (["["] : List String).length from rfl]
      rw [parSerElems es hE ["["] [] [] _
        (by simp only [List.length_append, List.length_cons, List.length_nil]
            omega)]
      simp +arith
    simp [parse_json, ht, hp]
  | Str s => simp [isContainer] at hc
  | Num q => simp [isContainer] at hc
  | Bool b => simp [isContainer] at hc
  | Null => simp [isContainer] at hc

theorem roundtrip_on_good_containers_witness :
    goodTree (JSONValue.Obj [("a", JSONValue.Bool true)]) = true ∧
    isContainer (JSONValue.Obj [("a", JSONValue.Bool true)]) = true ∧
    parse_json (serialize (JSONValue.Obj [("a", JSONValue.Bool true)])).data =
      some (JSONValue.Obj [("a", JSONValue.Bool true)]) :=
  ⟨by decide, by decide,
    roundtrip_on_good_containers _ (by decide) (by decide)⟩

/-- C3 counterexample: the parser can produce the top-level scalar tree
`Bool true` (from the input `true `), but `parse(serialize(Bool true))`
does not reproduce it: the serialized text `true` ends without a
delimiter, the final token is never flushed, and tokenize's end-of-input
assertion fails — unrelated to float formatting or quote escaping. -/
theorem roundtrip_fails_on_top_level_scalar :
    parse_json "true ".data = some (JSONValue.Bool true) ∧
    serialize (JSONValue.Bool true) = "true" ∧
    parse_json (serialize (JSONValue.Bool true)).data = none := by
  exact ⟨by decide, by decide, by decide⟩
